import Mathlib

/-!
A shallow embedding of the `fixed_string` crate (`src/lib.rs`): a
fixed-capacity, stack-resident string `FixedString<N>` holding a byte
buffer of exactly `N` units plus a length counter, together with the
`FixedStringRef` capability interface (assign/push/concatinate/get/clear),
raw construction, take, clone, formatted construction and indexing.

Bytes are modelled as `Nat` (every value the operations store is `< 256`);
`usize` arithmetic never overflows at these sizes, so `Nat` is used
directly.  Methods taking `&mut self` and returning `Result` are modelled
as `state → (result, new state)`; a Rust panic is modelled as `none`.
-/

namespace FixedStringModel

/-- The `FixedStringError` enum from `src/lib.rs`. -/
inductive FixedStringError where
  | AlreadyAssigned
  | Overflow
  | InvalidIndex
  | FormatError
deriving DecidableEq

/-- `FixedString<N>`: `buffer: [CHARACTER; N]` (`CHARACTER = u8`) and
`length: usize`. -/
structure FixedString (N : Nat) where
  buffer : List Nat
  length : Nat
deriving DecidableEq

/-- Well-formedness: the buffer holds exactly `N` units and
`length ≤ N`.  Every state the API constructs satisfies this. -/
def WF {N : Nat} (s : FixedString N) : Prop :=
  s.buffer.length = N ∧ s.length ≤ N

instance {N : Nat} (s : FixedString N) : Decidable (WF s) :=
  inferInstanceAs (Decidable (_ ∧ _))

/-- Write `bytes` into `buf` at consecutive indices starting at `off` —
the shape of every copy loop in `lib.rs`
(`for i in 0..k { buf[off + i] = bytes[i] }`). -/
def writeAt : List Nat → Nat → List Nat → List Nat
  | buf, _, [] => buf
  | buf, off, b :: rest => writeAt (buf.set off b) (off + 1) rest

/-- Read `count` units of `buf` starting at `index` (the source side of
the copy loops; the 0 default never fires on well-formed states). -/
def extract (buf : List Nat) : Nat → Nat → List Nat
  | _, 0 => []
  | index, count + 1 => buf.getD index 0 :: extract buf (index + 1) count

/-- Offset of the first zero-valued unit in a list (the list's length
when there is none). -/
def firstZeroIdx : List Nat → Nat
  | [] => 0
  | c :: rest => if c = 0 then 0 else firstZeroIdx rest + 1

/-- The scan loop of `from_raw`: starting from the all-zero buffer of
`new()`, copy units until the first zero (`break`), returning the final
buffer and the detected length.  The part of the fresh buffer the loop
never reaches stays zero, written `List.replicate _ 0`. -/
def fromRawScan : List Nat → List Nat × Nat
  | [] => ([], 0)
  | c :: rest =>
    if c = 0 then (List.replicate (rest.length + 1) 0, 0)
    else
      let p := fromRawScan rest
      (c :: p.1, p.2 + 1)

/-- `FixedString::new()`: all units zero, length 0. -/
def FixedString.new (N : Nat) : FixedString N :=
  ⟨List.replicate N 0, 0⟩

/-- Inherent `FixedString::clear` (lib.rs line 80): only resets `length`
to 0; the buffer is left untouched. -/
def FixedString.clear {N : Nat} (s : FixedString N) : FixedString N :=
  { s with length := 0 }

/-- `FixedString::raw`: the whole internal buffer. -/
def FixedString.raw {N : Nat} (s : FixedString N) : List Nat :=
  s.buffer

/-- `FixedString::from_raw`: scan a raw `N`-unit array, copying until the
first zero unit; always returns `Ok`. -/
def FixedString.from_raw (N : Nat) (raw : List Nat) :
    Except FixedStringError (FixedString N) :=
  .ok ⟨(fromRawScan raw).1, (fromRawScan raw).2⟩

/-- `FixedString::take`: returns `(res, self')`.  The loop copies
`self.buffer[i]` into the fresh `res` and zeroes `self.buffer[i]` for
`i in 0..self.length`; then `res.length = self.length` and
`self.length = 0`. -/
def FixedString.take {N : Nat} (s : FixedString N) : FixedString N × FixedString N :=
  (⟨writeAt (List.replicate N 0) 0 (extract s.buffer 0 s.length), s.length⟩,
   ⟨writeAt s.buffer 0 (List.replicate s.length 0), 0⟩)

/-- `Clone::clone_from` (lib.rs line 312): `self.clear()` resolves to the
inherent `clear` (Rust prefers inherent methods over trait methods), which
only resets `length`; then the loop copies `source.buffer[i]` for
`i in 0..source.length` and sets `length` to the source's. -/
def FixedString.clone_from {N : Nat} (dst src : FixedString N) : FixedString N :=
  let cleared := FixedString.clear dst
  ⟨writeAt cleared.buffer 0 (extract src.buffer 0 src.length), src.length⟩

/-- `Clone::clone`: `clone_from` into a fresh `new()`. -/
def FixedString.clone {N : Nat} (src : FixedString N) : FixedString N :=
  FixedString.clone_from (FixedString.new N) src

/-- `FixedStringRef::as_str`: the first `length` units of the buffer. -/
def FixedStringRef.as_str {N : Nat} (s : FixedString N) : List Nat :=
  s.buffer.take s.length

/-- `FixedStringRef::is_full`. -/
def FixedStringRef.is_full {N : Nat} (s : FixedString N) : Bool :=
  s.length == N

/-- `FixedStringRef::capacity`. -/
def FixedStringRef.capacity {N : Nat} (_ : FixedString N) : Nat :=
  N

/-- Trait `FixedStringRef::clear` for `FixedString<CAPACITY>` (lib.rs
line 168): zeroes every unit (`for i in 0..CAPACITY { buffer[i] = 0 }`)
and resets `length`. -/
def FixedStringRef.clear {N : Nat} (s : FixedString N) : FixedString N :=
  ⟨writeAt s.buffer 0 (List.replicate N 0), 0⟩

/-- `FixedStringRef::push`: reject with `Overflow` before any write when
`length + string.len() > CAPACITY`; otherwise copy
`min(CAPACITY - length, copy_len)` bytes at offset `length` and advance
`length` by `copy_len = min(string.len(), CAPACITY - length)`. -/
def FixedStringRef.push {N : Nat} (s : FixedString N) (string : List Nat) :
    Except FixedStringError Unit × FixedString N :=
  if s.length + string.length > N then (.error .Overflow, s)
  else
    let copyLen := min string.length (N - s.length)
    (.ok (), ⟨writeAt s.buffer s.length (string.take (min (N - s.length) copyLen)),
              s.length + copyLen⟩)

/-- `FixedStringRef::assign`: `AlreadyAssigned` when non-empty, else
`push`. -/
def FixedStringRef.assign {N : Nat} (s : FixedString N) (string : List Nat) :
    Except FixedStringError Unit × FixedString N :=
  if s.length ≠ 0 then (.error .AlreadyAssigned, s)
  else FixedStringRef.push s string

/-- `FixedStringRef::push_char`: `character as CHARACTER` truncates the
Unicode scalar value to its low byte (`% 256`). -/
def FixedStringRef.push_char {N : Nat} (s : FixedString N) (character : Nat) :
    Except FixedStringError Unit × FixedString N :=
  if s.length + 1 > N then (.error .Overflow, s)
  else (.ok (), ⟨s.buffer.set s.length (character % 256), s.length + 1⟩)

/-- `FixedStringRef::get`: `InvalidIndex` when `index >= CAPACITY`, else
the unit at `index`. -/
def FixedStringRef.get {N : Nat} (s : FixedString N) (index : Nat) :
    Except FixedStringError Nat :=
  if index ≥ N then .error .InvalidIndex
  else .ok (s.buffer.getD index 0)

/-- `FixedStringRef::get_mut`: the same capacity check as `get`; the
mutable reference it hands out is modelled by the unit it points at. -/
def FixedStringRef.get_mut {N : Nat} (s : FixedString N) (index : Nat) :
    Except FixedStringError Nat :=
  if index ≥ N then .error .InvalidIndex
  else .ok (s.buffer.getD index 0)

/-- The copy loop of `concatinate`, including the `?` on
`other.get(index)`: an error from `get` aborts the loop, leaving the units
already copied in place (`length` is only advanced after the loop). -/
def FixedStringRef.concatGo {M : Nat} (other : FixedString M) (selfLen : Nat) :
    Nat → List Nat → Nat → Except FixedStringError Unit × List Nat
  | 0, buf, _ => (.ok (), buf)
  | count + 1, buf, index =>
    match FixedStringRef.get other index with
    | .error e => (.error e, buf)
    | .ok c => FixedStringRef.concatGo other selfLen count (buf.set (selfLen + index) c) (index + 1)

/-- `FixedStringRef::concatinate`: reject with `Overflow` before any write
when `length + other.length() > CAPACITY`, else run the copy loop and
advance `length` by `other.length()`. -/
def FixedStringRef.concatinate {N M : Nat} (s : FixedString N) (other : FixedString M) :
    Except FixedStringError Unit × FixedString N :=
  if s.length + other.length > N then (.error .Overflow, s)
  else
    match FixedStringRef.concatGo other s.length other.length s.buffer 0 with
    | (.ok _, buf) => (.ok (), ⟨buf, s.length + other.length⟩)
    | (.error e, buf) => (.error e, ⟨buf, s.length⟩)

/-- `fmt::Write::write_str` for `FixedString<N>`: the same bounded append
as `push`, signalling `fmt::Error` (here `Except Unit`) on overflow. -/
def FixedString.write_str {N : Nat} (s : FixedString N) (string : List Nat) :
    Except Unit (FixedString N) :=
  if s.length + string.length > N then .error ()
  else
    let copyLen := min string.length (N - s.length)
    .ok ⟨writeAt s.buffer s.length (string.take (min (N - s.length) copyLen)),
         s.length + copyLen⟩

/-- `fmt::Write::write_char` for `FixedString<N>`: copies the single byte
`character as u8` (low byte of the scalar value) when there is room. -/
def FixedString.write_char {N : Nat} (s : FixedString N) (character : Nat) :
    Except Unit (FixedString N) :=
  if s.length + 1 > N then .error ()
  else .ok ⟨writeAt s.buffer s.length [character % 256], s.length + 1⟩

/-- `core::fmt::write` (standard library, outside this repository) drives
a `fmt::Write` sink by handing it the rendered fragments (literal pieces
and stringified substitutions) in order, stopping at the first error;
modelled as a left-to-right fold of `write_str`. -/
def FixedString.renderFragments {N : Nat} (s : FixedString N) :
    List (List Nat) → Except Unit (FixedString N)
  | [] => .ok s
  | frag :: rest =>
    match FixedString.write_str s frag with
    | .error e => .error e
    | .ok s2 => FixedString.renderFragments s2 rest

/-- `FixedString::format`: render into a fresh `new()`, mapping
`fmt::Error` to `FormatError`. -/
def FixedString.format (N : Nat) (frags : List (List Nat)) :
    Except FixedStringError (FixedString N) :=
  match FixedString.renderFragments (FixedString.new N) frags with
  | .ok fixed_string => .ok fixed_string
  | .error _ => .error .FormatError

/-- `Index<usize>::index` (lib.rs line 331): bounds-checked against the
current `length`; `none` models the panic on out-of-range access. -/
def FixedString.index {N : Nat} (s : FixedString N) (i : Nat) : Option Nat :=
  if i ≥ s.length then none else some (s.buffer.getD i 0)

/-- `IndexMut<usize>::index_mut` (lib.rs line 341): the same length check;
the mutable reference is modelled by the unit it points at. -/
def FixedString.index_mut {N : Nat} (s : FixedString N) (i : Nat) : Option Nat :=
  if i ≥ s.length then none else some (s.buffer.getD i 0)

/-! ### Helper lemmas about the copy-loop primitives -/

theorem length_writeAt (bytes : List Nat) :
    ∀ (buf : List Nat) (off : Nat), (writeAt buf off bytes).length = buf.length := by
  induction bytes with
  | nil => intro buf off; rfl
  | cons b rest ih =>
    intro buf off
    simp [writeAt, ih, List.length_set]

theorem writeAt_eq (bytes : List Nat) :
    ∀ (buf : List Nat) (off : Nat), off + bytes.length ≤ buf.length →
      writeAt buf off bytes = buf.take off ++ bytes ++ buf.drop (off + bytes.length) := by
  induction bytes with
  | nil =>
    intro buf off h
    simp [writeAt, List.take_append_drop]
  | cons b rest ih =>
    intro buf off h
    have hoff : off < buf.length := by simp at h; omega
    have hlen : (buf.set off b).length = buf.length := List.length_set ..
    have hih : (off + 1) + rest.length ≤ (buf.set off b).length := by
      simp [hlen] at *; omega
    have htake : (buf.set off b).take (off + 1) = buf.take off ++ [b] := by
      rw [List.set_eq_take_cons_drop b hoff]
      have hlt : (buf.take off).length = off := by
        simp [List.length_take, Nat.min_eq_left (Nat.le_of_lt hoff)]
      calc (buf.take off ++ b :: buf.drop (off + 1)).take (off + 1)
          = (buf.take off ++ b :: buf.drop (off + 1)).take ((buf.take off).length + 1) := by
            rw [hlt]
        _ = buf.take off ++ (b :: buf.drop (off + 1)).take 1 := List.take_append 1
        _ = buf.take off ++ [b] := by simp
    have hdrop : (buf.set off b).drop (off + 1 + rest.length) = buf.drop (off + 1 + rest.length) := by
      rw [List.drop_set]
      simp [Nat.lt_of_lt_of_le (Nat.lt_succ_self off) (Nat.le_add_right _ _)]
    calc writeAt buf off (b :: rest)
        = writeAt (buf.set off b) (off + 1) rest := rfl
      _ = (buf.set off b).take (off + 1) ++ rest ++ (buf.set off b).drop (off + 1 + rest.length) :=
          ih (buf.set off b) (off + 1) hih
      _ = (buf.take off ++ [b]) ++ rest ++ buf.drop (off + 1 + rest.length) := by
          rw [htake, hdrop]
      _ = buf.take off ++ (b :: rest) ++ buf.drop (off + (b :: rest).length) := by
          have harith : off + 1 + rest.length = off + (rest.length + 1) := by omega
          simp [harith]

theorem writeAt_take_window (bytes buf : List Nat) (off : Nat)
    (h : off + bytes.length ≤ buf.length) :
    (writeAt buf off bytes).take (off + bytes.length) = buf.take off ++ bytes := by
  rw [writeAt_eq bytes buf off h]
  have hlt : (buf.take off).length = off := by
    simp [List.length_take, Nat.min_eq_left (by omega : off ≤ buf.length)]
  calc (buf.take off ++ bytes ++ buf.drop (off + bytes.length)).take (off + bytes.length)
      = (buf.take off ++ (bytes ++ buf.drop (off + bytes.length))).take
          ((buf.take off).length + bytes.length) := by rw [hlt, List.append_assoc]
    _ = buf.take off ++ (bytes ++ buf.drop (off + bytes.length)).take bytes.length :=
        List.take_append bytes.length
    _ = buf.take off ++ bytes := by
        rw [List.take_append_of_le_length (Nat.le_refl _), List.take_length]

theorem writeAt_drop_window (bytes buf : List Nat) (off : Nat)
    (h : off + bytes.length ≤ buf.length) :
    (writeAt buf off bytes).drop (off + bytes.length) = buf.drop (off + bytes.length) := by
  rw [writeAt_eq bytes buf off h]
  have hlt : (buf.take off ++ bytes).length = off + bytes.length := by
    simp [List.length_append, List.length_take, Nat.min_eq_left (by omega : off ≤ buf.length)]
  calc (buf.take off ++ bytes ++ buf.drop (off + bytes.length)).drop (off + bytes.length)
      = ((buf.take off ++ bytes) ++ buf.drop (off + bytes.length)).drop
          (buf.take off ++ bytes).length := by rw [hlt, List.append_assoc]
    _ = buf.drop (off + bytes.length) := List.drop_left ..

theorem length_extract (buf : List Nat) :
    ∀ (count index : Nat), (extract buf index count).length = count := by
  intro count
  induction count with
  | zero => intro index; rfl
  | succ c ih => intro index; simp [extract, ih]

theorem extract_eq (buf : List Nat) :
    ∀ (count index : Nat), index + count ≤ buf.length →
      extract buf index count = (buf.drop index).take count := by
  intro count
  induction count with
  | zero => intro index h; simp [extract]
  | succ c ih =>
    intro index h
    have hidx : index < buf.length := by omega
    calc extract buf index (c + 1)
        = buf.getD index 0 :: extract buf (index + 1) c := rfl
      _ = buf[index] :: (buf.drop (index + 1)).take c := by
          rw [ih (index + 1) (by omega)]
          simp [List.getD_eq_getElem?_getD, List.getElem?_eq_getElem hidx]
      _ = (buf.drop index).take (c + 1) := by
          rw [List.drop_eq_getElem_cons hidx, List.take_succ_cons]

theorem extract_zero_eq_take (buf : List Nat) (count : Nat) (h : count ≤ buf.length) :
    extract buf 0 count = buf.take count := by
  rw [extract_eq buf count 0 (by omega)]
  simp

/-! ### Normal forms of the operations on the success path -/

theorem push_ok {N : Nat} (s : FixedString N) (string : List Nat)
    (h : s.length + string.length ≤ N) :
    FixedStringRef.push s string =
      (.ok (), ⟨writeAt s.buffer s.length string, s.length + string.length⟩) := by
  have h1 : ¬s.length + string.length > N := by omega
  have h2 : string.length ≤ N - s.length := by omega
  simp [FixedStringRef.push, h1, Nat.min_eq_left h2, Nat.min_eq_right h2, List.take_length]

theorem write_str_ok {N : Nat} (s : FixedString N) (string : List Nat)
    (h : s.length + string.length ≤ N) :
    FixedString.write_str s string =
      .ok ⟨writeAt s.buffer s.length string, s.length + string.length⟩ := by
  have h1 : ¬s.length + string.length > N := by omega
  have h2 : string.length ≤ N - s.length := by omega
  simp [FixedString.write_str, h1, Nat.min_eq_left h2, Nat.min_eq_right h2, List.take_length]

theorem push_err {N : Nat} (s : FixedString N) (string : List Nat)
    (h : s.length + string.length > N) :
    FixedStringRef.push s string = (.error .Overflow, s) := by
  simp [FixedStringRef.push, h]

theorem write_str_err {N : Nat} (s : FixedString N) (string : List Nat)
    (h : s.length + string.length > N) :
    FixedString.write_str s string = .error () := by
  simp [FixedString.write_str, h]

theorem push_WF {N : Nat} (s : FixedString N) (string : List Nat)
    (hs : WF s) (h : s.length + string.length ≤ N) :
    WF (FixedStringRef.push s string).2 := by
  rw [push_ok s string h]
  refine ⟨?_, ?_⟩
  · show (writeAt s.buffer s.length string).length = N
    rw [length_writeAt, hs.1]
  · show s.length + string.length ≤ N
    exact h

theorem concatGo_ok {M : Nat} (other : FixedString M) (selfLen : Nat) (hM : other.length ≤ M) :
    ∀ (count index : Nat) (buf : List Nat), index + count ≤ other.length →
      FixedStringRef.concatGo other selfLen count buf index =
        (.ok (), writeAt buf (selfLen + index) (extract other.buffer index count)) := by
  intro count
  induction count with
  | zero => intro index buf _; rfl
  | succ c ih =>
    intro index buf h
    have hidx : ¬index ≥ M := by omega
    calc FixedStringRef.concatGo other selfLen (c + 1) buf index
        = FixedStringRef.concatGo other selfLen c
            (buf.set (selfLen + index) (other.buffer.getD index 0)) (index + 1) := by
          simp [FixedStringRef.concatGo, FixedStringRef.get, hidx]
      _ = (.ok (), writeAt (buf.set (selfLen + index) (other.buffer.getD index 0))
            (selfLen + index + 1) (extract other.buffer (index + 1) c)) := by
          rw [ih (index + 1) _ (by omega)]
          have : selfLen + (index + 1) = selfLen + index + 1 := by omega
          rw [this]
      _ = (.ok (), writeAt buf (selfLen + index) (extract other.buffer index (c + 1))) := rfl

theorem concatinate_ok {N M : Nat} (s : FixedString N) (other : FixedString M)
    (hM : other.length ≤ M) (h : s.length + other.length ≤ N) :
    FixedStringRef.concatinate s other =
      (.ok (), ⟨writeAt s.buffer s.length (extract other.buffer 0 other.length),
                s.length + other.length⟩) := by
  have h1 : ¬s.length + other.length > N := by omega
  unfold FixedStringRef.concatinate
  rw [if_neg h1, concatGo_ok other s.length hM other.length 0 s.buffer (by omega)]
  rfl

theorem concatinate_err {N M : Nat} (s : FixedString N) (other : FixedString M)
    (h : s.length + other.length > N) :
    FixedStringRef.concatinate s other = (.error .Overflow, s) := by
  simp [FixedStringRef.concatinate, h]

/-- Content specification of a successful `concatinate`: the new text is
the old text followed by the other container's text. -/
theorem concatinate_spec {N M : Nat} (s : FixedString N) (other : FixedString M)
    (hs : WF s) (ho : WF other) (h : s.length + other.length ≤ N) :
    (FixedStringRef.concatinate s other).1 = .ok () ∧
    (FixedStringRef.concatinate s other).2.length = s.length + other.length ∧
    FixedStringRef.as_str (FixedStringRef.concatinate s other).2 =
      FixedStringRef.as_str s ++ FixedStringRef.as_str other ∧
    WF (FixedStringRef.concatinate s other).2 := by
  rw [concatinate_ok s other ho.2 h]
  have hbytes : (extract other.buffer 0 other.length).length = other.length :=
    length_extract other.buffer other.length 0
  have hwin := writeAt_take_window (extract other.buffer 0 other.length) s.buffer s.length
    (by rw [hbytes, hs.1]; omega)
  rw [hbytes] at hwin
  refine ⟨rfl, rfl, ?_, ?_, ?_⟩
  · show (writeAt s.buffer s.length (extract other.buffer 0 other.length)).take
        (s.length + other.length) = s.buffer.take s.length ++ other.buffer.take other.length
    rw [hwin, extract_zero_eq_take other.buffer other.length (by rw [ho.1]; exact ho.2)]
  · show (writeAt s.buffer s.length (extract other.buffer 0 other.length)).length = N
    rw [length_writeAt, hs.1]
  · show s.length + other.length ≤ N
    exact h

/-- Total rendered length of a fragment sequence. -/
def sumLens (frags : List (List Nat)) : Nat :=
  (frags.map List.length).sum

theorem renderFragments_spec {N : Nat} :
    ∀ (frags : List (List Nat)) (s : FixedString N), WF s →
      s.length + sumLens frags ≤ N →
      ∃ fs, FixedString.renderFragments s frags = .ok fs ∧
        fs.length = s.length + sumLens frags ∧
        FixedStringRef.as_str fs = FixedStringRef.as_str s ++ frags.flatten ∧ WF fs := by
  intro frags
  induction frags with
  | nil =>
    intro s hs _
    exact ⟨s, rfl, by simp [sumLens], by simp [FixedStringRef.as_str], hs⟩
  | cons f rest ih =>
    intro s hs h
    have hsum : sumLens (f :: rest) = f.length + sumLens rest := by
      simp [sumLens]
    have hf : s.length + f.length ≤ N := by omega
    have hstep : FixedString.renderFragments s (f :: rest) =
        FixedString.renderFragments
          (⟨writeAt s.buffer s.length f, s.length + f.length⟩ : FixedString N) rest := by
      simp [FixedString.renderFragments, write_str_ok s f hf]
    have hWF2 : WF (⟨writeAt s.buffer s.length f, s.length + f.length⟩ : FixedString N) :=
      ⟨by simp [length_writeAt, hs.1], by show s.length + f.length ≤ N; omega⟩
    obtain ⟨fs, hrun, hlen, hstr, hwf⟩ :=
      ih (⟨writeAt s.buffer s.length f, s.length + f.length⟩ : FixedString N) hWF2 (by
        show s.length + f.length + sumLens rest ≤ N
        omega)
    refine ⟨fs, by rw [hstep, hrun], ?_, ?_, hwf⟩
    · rw [hlen, hsum]
      show s.length + f.length + sumLens rest = s.length + (f.length + sumLens rest)
      omega
    rw [hstr]
    have has2 : FixedStringRef.as_str
        (⟨writeAt s.buffer s.length f, s.length + f.length⟩ : FixedString N) =
        FixedStringRef.as_str s ++ f := by
      show (writeAt s.buffer s.length f).take (s.length + f.length) =
        s.buffer.take s.length ++ f
      exact writeAt_take_window f s.buffer s.length (by rw [hs.1]; omega)
    rw [has2]
    simp [FixedStringRef.as_str]

theorem renderFragments_overflow {N : Nat} :
    ∀ (frags : List (List Nat)) (s : FixedString N), WF s →
      s.length + sumLens frags > N →
      FixedString.renderFragments s frags = .error () := by
  intro frags
  induction frags with
  | nil =>
    intro s hs h
    exact absurd hs.2 (by simp [sumLens] at h; omega)
  | cons f rest ih =>
    intro s hs h
    have hsum : sumLens (f :: rest) = f.length + sumLens rest := by
      simp [sumLens]
    by_cases hf : s.length + f.length > N
    · simp [FixedString.renderFragments, write_str_err s f hf]
    · have hf2 : s.length + f.length ≤ N := by omega
      have hWF2 : WF (⟨writeAt s.buffer s.length f, s.length + f.length⟩ : FixedString N) :=
        ⟨by simp [length_writeAt, hs.1], by show s.length + f.length ≤ N; omega⟩
      have hrec := ih (⟨writeAt s.buffer s.length f, s.length + f.length⟩ : FixedString N)
        hWF2 (by show s.length + f.length + sumLens rest > N; omega)
      simp [FixedString.renderFragments, write_str_ok s f hf2, hrec]

theorem firstZeroIdx_le : ∀ raw : List Nat, firstZeroIdx raw ≤ raw.length := by
  intro raw
  induction raw with
  | nil => simp [firstZeroIdx]
  | cons c rest ih =>
    by_cases hc : c = 0
    · simp [firstZeroIdx, hc]
    · simp [firstZeroIdx, hc]
      omega

/-- `firstZeroIdx` really is the offset of the first zero unit: everything
before it is non-zero, and (when in range) the unit there is zero. -/
theorem firstZeroIdx_spec : ∀ raw : List Nat,
    (∀ j, j < firstZeroIdx raw → raw.getD j 0 ≠ 0) ∧
    (firstZeroIdx raw < raw.length → raw.getD (firstZeroIdx raw) 0 = 0) := by
  intro raw
  induction raw with
  | nil => exact ⟨fun j hj => absurd hj (by simp [firstZeroIdx]), by simp⟩
  | cons c rest ih =>
    by_cases hc : c = 0
    · refine ⟨fun j hj => absurd hj (by simp [firstZeroIdx, hc]), ?_⟩
      simp [firstZeroIdx, hc]
    · refine ⟨?_, ?_⟩
      · intro j hj
        match j with
        | 0 => simpa using hc
        | j + 1 =>
          have : j < firstZeroIdx rest := by
            simp [firstZeroIdx, hc] at hj; omega
          simpa using ih.1 j this
      · intro hlt
        have : firstZeroIdx rest < rest.length := by
          simp [firstZeroIdx, hc] at hlt; omega
        simpa [firstZeroIdx, hc] using ih.2 this

theorem fromRawScan_fst_length : ∀ raw : List Nat, (fromRawScan raw).1.length = raw.length := by
  intro raw
  induction raw with
  | nil => rfl
  | cons c rest ih =>
    by_cases hc : c = 0 <;> simp [fromRawScan, hc, ih]

theorem fromRawScan_snd : ∀ raw : List Nat, (fromRawScan raw).2 = firstZeroIdx raw := by
  intro raw
  induction raw with
  | nil => rfl
  | cons c rest ih =>
    by_cases hc : c = 0 <;> simp [fromRawScan, firstZeroIdx, hc, ih]

theorem fromRawScan_getD : ∀ (raw : List Nat) (i : Nat),
    i ≤ firstZeroIdx raw → i < raw.length →
    (fromRawScan raw).1.getD i 0 = raw.getD i 0 := by
  intro raw
  induction raw with
  | nil => intro i _ hi; exact absurd hi (by simp)
  | cons c rest ih =>
    intro i hfz hi
    by_cases hc : c = 0
    · have : i = 0 := by simp [firstZeroIdx, hc] at hfz; omega
      subst this
      simp [fromRawScan, hc, List.replicate_succ]
    · match i with
      | 0 => simp [fromRawScan, hc]
      | i + 1 =>
        have h1 : i ≤ firstZeroIdx rest := by
          simp [firstZeroIdx, hc] at hfz; omega
        have h2 : i < rest.length := by simpa using hi
        simpa [fromRawScan, hc] using ih i h1 h2

theorem writeAt_zero (bytes buf : List Nat) (h : bytes.length ≤ buf.length) :
    writeAt buf 0 bytes = bytes ++ buf.drop bytes.length := by
  have := writeAt_eq bytes buf 0 (by omega)
  simpa using this

/-- On well-formed states the trait `clear` produces the all-zero empty
container. -/
theorem clearRef_eq {N : Nat} (s : FixedString N) (hs : WF s) :
    FixedStringRef.clear s = ⟨List.replicate N 0, 0⟩ := by
  show (⟨writeAt s.buffer 0 (List.replicate N 0), 0⟩ : FixedString N) = _
  have hb : writeAt s.buffer 0 (List.replicate N 0) = List.replicate N 0 := by
    rw [writeAt_zero (List.replicate N 0) s.buffer (by simp [hs.1])]
    rw [List.length_replicate, List.drop_of_length_le (by rw [hs.1] : s.buffer.length ≤ N),
      List.append_nil]
  rw [hb]

/-! ### Concrete sample states (each reachable through the public API) -/

/-- A capacity-2 container holding bytes `[97, 98]` ("ab"); see
`sampleAB_reachable`. -/
def sampleAB : FixedString 2 := ⟨[97, 98], 2⟩

theorem sampleAB_reachable :
    FixedStringRef.push (FixedString.new 2) [97, 98] = (.ok (), sampleAB) := by
  rfl

/-- A capacity-2 container holding bytes `[5, 5]`; see
`dstC2_reachable`. -/
def dstC2 : FixedString 2 := ⟨[5, 5], 2⟩

theorem dstC2_reachable :
    FixedStringRef.push (FixedString.new 2) [5, 5] = (.ok (), dstC2) := by
  rfl

/-- A capacity-2 container holding the single byte `7`; see
`srcC2_reachable`. -/
def srcC2 : FixedString 2 := ⟨[7, 0], 1⟩

theorem srcC2_reachable :
    FixedStringRef.push (FixedString.new 2) [7] = (.ok (), srcC2) := by
  rfl

/-- An empty capacity-2 container whose buffer still holds the stale bytes
`[97, 98]`: the result of the inherent `clear` on `sampleAB`. -/
def staleC3 : FixedString 2 := ⟨[97, 98], 0⟩

theorem staleC3_reachable : FixedString.clear sampleAB = staleC3 := by
  rfl

/-! ### Claims -/

/-- Claim C1, amended: after the capability-interface `clear()`, `length()`
is 0 and every one of the `N` storage units equals the zero value; after
the concrete type's `clear()`, `length()` is 0 but the storage units are
left unchanged (hence not necessarily zero). -/
theorem c1_clear_semantics (N : Nat) (s : FixedString N) (hs : WF s) :
    (FixedStringRef.clear s).length = 0 ∧
    (∀ j, j < N → (FixedStringRef.clear s).buffer.getD j 0 = 0) ∧
    (FixedString.clear s).length = 0 ∧
    (FixedString.clear s).buffer = s.buffer := by
  rw [clearRef_eq s hs]
  refine ⟨rfl, ?_, rfl, rfl⟩
  intro j hj
  show (List.replicate N 0).getD j 0 = 0
  simp [List.getD_eq_getElem?_getD, List.getElem?_replicate, hj]

theorem c1_clear_semantics_witness :
    (FixedStringRef.clear sampleAB).length = 0 ∧
    (FixedStringRef.clear sampleAB).buffer.getD 0 0 = 0 ∧
    (FixedStringRef.clear sampleAB).buffer.getD 1 0 = 0 ∧
    (FixedString.clear sampleAB).length = 0 ∧
    (FixedString.clear sampleAB).buffer = sampleAB.buffer :=
  ⟨(c1_clear_semantics 2 sampleAB (by decide)).1,
   (c1_clear_semantics 2 sampleAB (by decide)).2.1 0 (by decide),
   (c1_clear_semantics 2 sampleAB (by decide)).2.1 1 (by decide),
   (c1_clear_semantics 2 sampleAB (by decide)).2.2.1,
   (c1_clear_semantics 2 sampleAB (by decide)).2.2.2⟩

/-- Claim C1 as stated is false on the concrete type's `clear`: clearing a
capacity-2 container holding "ab" resets `length` to 0 but leaves the
first storage unit equal to 97, not the zero value. -/
theorem c1_counterexample :
    (FixedString.clear sampleAB).length = 0 ∧
    (FixedString.clear sampleAB).buffer.getD 0 0 ≠ 0 := by
  decide

/-- Claim C2, amended: `clone_from` produces identical `length` and
identical content in `[0, source.length)`, and `clone` (into a fresh
container) additionally has an all-zero tail; but `clone_from` does NOT
fully clear the destination's storage first — the inherent `clear` it
calls only resets `length`, so the destination's units in
`[source.length, N)` keep their previous values. -/
theorem c2_clone_semantics (N : Nat) (dst src : FixedString N)
    (hd : WF dst) (hsrc : WF src) :
    (FixedString.clone_from dst src).length = src.length ∧
    (FixedString.clone_from dst src).buffer.take src.length =
      src.buffer.take src.length ∧
    (FixedString.clone_from dst src).buffer.drop src.length =
      dst.buffer.drop src.length ∧
    (FixedString.clone src).length = src.length ∧
    (FixedString.clone src).buffer =
      src.buffer.take src.length ++ List.replicate (N - src.length) 0 := by
  have hext : (extract src.buffer 0 src.length).length = src.length :=
    length_extract src.buffer src.length 0
  have hextv : extract src.buffer 0 src.length = src.buffer.take src.length :=
    extract_zero_eq_take src.buffer src.length (by rw [hsrc.1]; exact hsrc.2)
  have hcf : ∀ (d : FixedString N), WF d →
      FixedString.clone_from d src =
        ⟨src.buffer.take src.length ++ d.buffer.drop src.length, src.length⟩ := by
    intro d hdw
    show (⟨writeAt d.buffer 0 (extract src.buffer 0 src.length), src.length⟩ : FixedString N) = _
    rw [writeAt_zero _ d.buffer (by rw [hext, hdw.1]; exact hsrc.2), hext, hextv]
  have hnewWF : WF (FixedString.new N) := ⟨by simp [FixedString.new], by simp [FixedString.new]⟩
  have hlen_take : (src.buffer.take src.length).length = src.length := by
    simp [List.length_take, hsrc.1, Nat.min_eq_left hsrc.2]
  refine ⟨?_, ?_, ?_, ?_, ?_⟩
  · rw [hcf dst hd]
  · rw [hcf dst hd]
    show (src.buffer.take src.length ++ dst.buffer.drop src.length).take src.length = _
    exact List.take_left' hlen_take
  · rw [hcf dst hd]
    show (src.buffer.take src.length ++ dst.buffer.drop src.length).drop src.length = _
    exact List.drop_left' hlen_take
  · rw [FixedString.clone, hcf (FixedString.new N) hnewWF]
  · rw [FixedString.clone, hcf (FixedString.new N) hnewWF]
    show src.buffer.take src.length ++ (List.replicate N 0).drop src.length = _
    rw [List.drop_replicate]

theorem c2_clone_semantics_witness :
    (FixedString.clone_from dstC2 srcC2).length = srcC2.length ∧
    (FixedString.clone_from dstC2 srcC2).buffer.take srcC2.length =
      srcC2.buffer.take srcC2.length ∧
    (FixedString.clone_from dstC2 srcC2).buffer.drop srcC2.length =
      dstC2.buffer.drop srcC2.length ∧
    (FixedString.clone srcC2).length = srcC2.length ∧
    (FixedString.clone srcC2).buffer =
      srcC2.buffer.take srcC2.length ++ List.replicate (2 - srcC2.length) 0 :=
  c2_clone_semantics 2 dstC2 srcC2 (by decide) (by decide)

/-- Claim C2 as stated is false: cloning a 1-byte source over a
destination previously holding `[5, 5]` leaves the destination's old byte
5 in the unused tail (unit 1), so the destination's storage was not fully
cleared. -/
theorem c2_counterexample :
    (FixedString.clone_from dstC2 srcC2).length = 1 ∧
    (FixedString.clone_from dstC2 srcC2).buffer.getD 1 0 = 5 ∧
    (5 : Nat) ≠ 0 := by
  decide

/-- Claim C3, amended: `take` never fails, returns a new container with
the original's `length` and content in `[0, length)` (and an all-zero
tail), and leaves the original with `length` 0 and its first (old)
`length` units zeroed; the original's units in `[length, N)` are left
unchanged, hence not necessarily zero. -/
theorem c3_take_semantics (N : Nat) (s : FixedString N) (hs : WF s) :
    (FixedString.take s).1.length = s.length ∧
    (FixedString.take s).1.buffer =
      s.buffer.take s.length ++ List.replicate (N - s.length) 0 ∧
    (FixedString.take s).2.length = 0 ∧
    (FixedString.take s).2.buffer =
      List.replicate s.length 0 ++ s.buffer.drop s.length := by
  have hext : (extract s.buffer 0 s.length).length = s.length :=
    length_extract s.buffer s.length 0
  have hextv : extract s.buffer 0 s.length = s.buffer.take s.length :=
    extract_zero_eq_take s.buffer s.length (by rw [hs.1]; exact hs.2)
  refine ⟨rfl, ?_, rfl, ?_⟩
  · show writeAt (List.replicate N 0) 0 (extract s.buffer 0 s.length) = _
    rw [writeAt_zero _ _ (by rw [hext]; simp [hs.2]), hext, hextv, List.drop_replicate]
  · show writeAt s.buffer 0 (List.replicate s.length 0) = _
    rw [writeAt_zero _ _ (by simp [hs.1, hs.2]), List.length_replicate]

theorem c3_take_semantics_witness :
    (FixedString.take sampleAB).1.length = sampleAB.length ∧
    (FixedString.take sampleAB).1.buffer =
      sampleAB.buffer.take sampleAB.length ++ List.replicate (2 - sampleAB.length) 0 ∧
    (FixedString.take sampleAB).2.length = 0 ∧
    (FixedString.take sampleAB).2.buffer =
      List.replicate sampleAB.length 0 ++ sampleAB.buffer.drop sampleAB.length :=
  c3_take_semantics 2 sampleAB (by decide)

/-- Claim C3 as stated is false: on an empty capacity-2 container whose
buffer still holds the stale bytes `[97, 98]` (reachable via `push` then
the inherent `clear`, see `staleC3_reachable`), `take` leaves the original
with unit 0 equal to 97 — not every one of its storage units is zeroed. -/
theorem c3_counterexample :
    (FixedString.take staleC3).2.length = 0 ∧
    (FixedString.take staleC3).2.buffer.getD 0 0 = 97 ∧
    (97 : Nat) ≠ 0 := by
  decide

/-- Claim C4: `assign(t)` succeeds iff the container was empty and
`len(t) ≤ N`; on success `length() = len(t)` and the content read back as
text equals `t`; a non-empty container yields `AlreadyAssigned` (with the
target unchanged) and a too-long text on an empty container yields
`Overflow` (with the target unchanged). -/
theorem c4_assign_spec (N : Nat) (s : FixedString N) (t : List Nat) (hs : WF s) :
    ((FixedStringRef.assign s t).1 = .ok () ↔ s.length = 0 ∧ t.length ≤ N) ∧
    (s.length = 0 → t.length ≤ N →
      (FixedStringRef.assign s t).2.length = t.length ∧
      FixedStringRef.as_str (FixedStringRef.assign s t).2 = t) ∧
    (s.length ≠ 0 → FixedStringRef.assign s t = (.error .AlreadyAssigned, s)) ∧
    (s.length = 0 → N < t.length →
      FixedStringRef.assign s t = (.error .Overflow, s)) := by
  by_cases h0 : s.length = 0
  · have hassign : FixedStringRef.assign s t = FixedStringRef.push s t := by
      simp [FixedStringRef.assign, h0]
    by_cases hfit : t.length ≤ N
    · have hok := push_ok s t (by omega)
      refine ⟨?_, ?_, ?_, ?_⟩
      · rw [hassign, hok]
        simp [h0, hfit]
      · intro _ _
        rw [hassign, hok]
        refine ⟨by show s.length + t.length = t.length; omega, ?_⟩
        show (writeAt s.buffer s.length t).take (s.length + t.length) = t
        rw [writeAt_take_window t s.buffer s.length (by rw [hs.1]; omega), h0]
        simp
      · intro hne; exact absurd h0 hne
      · intro _ hlt; omega
    · have herr := push_err s t (by omega)
      refine ⟨?_, ?_, ?_, ?_⟩
      · rw [hassign, herr]
        simp [hfit]
      · intro _ hle; omega
      · intro hne; exact absurd h0 hne
      · intro _ _
        rw [hassign, herr]
  · have herr : FixedStringRef.assign s t = (.error .AlreadyAssigned, s) := by
      simp [FixedStringRef.assign, h0]
    refine ⟨?_, ?_, fun _ => herr, ?_⟩
    · rw [herr]
      simp [h0]
    · intro h; exact absurd h h0
    · intro h; exact absurd h h0

theorem c4_assign_spec_witness :
    ((FixedStringRef.assign (FixedString.new 3) [104, 105]).1 = .ok () ↔
      (FixedString.new 3).length = 0 ∧ ([104, 105] : List Nat).length ≤ 3) ∧
    (FixedStringRef.assign (FixedString.new 3) [104, 105]).2.length =
      ([104, 105] : List Nat).length ∧
    FixedStringRef.as_str (FixedStringRef.assign (FixedString.new 3) [104, 105]).2 =
      [104, 105] ∧
    FixedStringRef.assign sampleAB [1] = (.error .AlreadyAssigned, sampleAB) ∧
    FixedStringRef.assign (FixedString.new 1) [1, 2] =
      (.error .Overflow, FixedString.new 1) :=
  ⟨(c4_assign_spec 3 (FixedString.new 3) [104, 105] (by decide)).1,
   ((c4_assign_spec 3 (FixedString.new 3) [104, 105] (by decide)).2.1
      (by decide) (by decide)).1,
   ((c4_assign_spec 3 (FixedString.new 3) [104, 105] (by decide)).2.1
      (by decide) (by decide)).2,
   (c4_assign_spec 2 sampleAB [1] (by decide)).2.2.1 (by decide),
   (c4_assign_spec 1 (FixedString.new 1) [1, 2] (by decide)).2.2.2
      (by decide) (by decide)⟩

/-- Claim C5: any `push`, `push_char`, `assign` or `concatinate` whose
post-operation length would exceed the capacity `N` returns an error and
leaves the target completely unchanged (the overflow check precedes every
write). -/
theorem c5_overflow_atomicity (N M : Nat) (s : FixedString N)
    (other : FixedString M) (t : List Nat) (c : Nat) :
    (s.length + t.length > N → FixedStringRef.push s t = (.error .Overflow, s)) ∧
    (s.length + 1 > N → FixedStringRef.push_char s c = (.error .Overflow, s)) ∧
    (s.length + t.length > N → ∃ e, FixedStringRef.assign s t = (.error e, s)) ∧
    (s.length + other.length > N →
      FixedStringRef.concatinate s other = (.error .Overflow, s)) := by
  refine ⟨push_err s t, ?_, ?_, concatinate_err s other⟩
  · intro h
    simp [FixedStringRef.push_char, h]
  · intro h
    by_cases h0 : s.length = 0
    · exact ⟨.Overflow, by simp [FixedStringRef.assign, h0, push_err s t h]⟩
    · exact ⟨.AlreadyAssigned, by simp [FixedStringRef.assign, h0]⟩

theorem c5_overflow_atomicity_witness :
    FixedStringRef.push sampleAB [1] = (.error .Overflow, sampleAB) ∧
    FixedStringRef.push_char sampleAB 5 = (.error .Overflow, sampleAB) ∧
    (∃ e, FixedStringRef.assign sampleAB [1] = (.error e, sampleAB)) ∧
    FixedStringRef.concatinate sampleAB srcC2 = (.error .Overflow, sampleAB) :=
  ⟨(c5_overflow_atomicity 2 2 sampleAB srcC2 [1] 5).1 (by decide),
   (c5_overflow_atomicity 2 2 sampleAB srcC2 [1] 5).2.1 (by decide),
   (c5_overflow_atomicity 2 2 sampleAB srcC2 [1] 5).2.2.1 (by decide),
   (c5_overflow_atomicity 2 2 sampleAB srcC2 [1] 5).2.2.2 (by decide)⟩

/-- Claim C6: `from_raw` always succeeds on an `N`-unit raw array; the
resulting length is the offset of the first zero-valued unit (or `N` when
there is none) — `firstZeroIdx` is shown to be exactly that offset — the
units before that offset are copied verbatim, and reading `raw()` back
agrees with the original array on every position up to and including the
first zero unit. -/
theorem c6_from_raw_roundtrip (N : Nat) (raw : List Nat) (hlen : raw.length = N) :
    ∃ fs : FixedString N, FixedString.from_raw N raw = .ok fs ∧
      fs.length = firstZeroIdx raw ∧
      firstZeroIdx raw ≤ N ∧
      (∀ j, j < firstZeroIdx raw → raw.getD j 0 ≠ 0) ∧
      (firstZeroIdx raw < N → raw.getD (firstZeroIdx raw) 0 = 0) ∧
      (∀ i, i ≤ firstZeroIdx raw → i < N → (FixedString.raw fs).getD i 0 = raw.getD i 0) ∧
      WF fs := by
  refine ⟨⟨(fromRawScan raw).1, (fromRawScan raw).2⟩, rfl, ?_, ?_, ?_, ?_, ?_, ?_, ?_⟩
  · show (fromRawScan raw).2 = firstZeroIdx raw
    exact fromRawScan_snd raw
  · rw [← hlen]; exact firstZeroIdx_le raw
  · exact (firstZeroIdx_spec raw).1
  · rw [← hlen]; exact (firstZeroIdx_spec raw).2
  · intro i hi hiN
    show (fromRawScan raw).1.getD i 0 = raw.getD i 0
    exact fromRawScan_getD raw i hi (by omega)
  · show (fromRawScan raw).1.length = N
    rw [fromRawScan_fst_length, hlen]
  · show (fromRawScan raw).2 ≤ N
    rw [fromRawScan_snd, ← hlen]
    exact firstZeroIdx_le raw

theorem c6_from_raw_roundtrip_witness :
    ∃ fs : FixedString 4, FixedString.from_raw 4 [72, 105, 0, 33] = .ok fs ∧
      fs.length = firstZeroIdx [72, 105, 0, 33] ∧
      firstZeroIdx [72, 105, 0, 33] ≤ 4 ∧
      (∀ j, j < firstZeroIdx [72, 105, 0, 33] →
        ([72, 105, 0, 33] : List Nat).getD j 0 ≠ 0) ∧
      (firstZeroIdx [72, 105, 0, 33] < 4 →
        ([72, 105, 0, 33] : List Nat).getD (firstZeroIdx [72, 105, 0, 33]) 0 = 0) ∧
      (∀ i, i ≤ firstZeroIdx [72, 105, 0, 33] → i < 4 →
        (FixedString.raw fs).getD i 0 = ([72, 105, 0, 33] : List Nat).getD i 0) ∧
      WF fs :=
  c6_from_raw_roundtrip 4 [72, 105, 0, 33] (by decide)

/-- Claim C7: concatenation is associative in content — whenever every
intermediate concatenation stays within the respective capacities,
`concat(a, concat(b, c))` and `concat(concat(a, b), c)` read back as the
same text. -/
theorem c7_concat_assoc (Na Nb Nc : Nat) (a : FixedString Na) (b : FixedString Nb)
    (c : FixedString Nc) (ha : WF a) (hb : WF b) (hc : WF c)
    (hbc : b.length + c.length ≤ Nb)
    (habc : a.length + (b.length + c.length) ≤ Na) :
    FixedStringRef.as_str (FixedStringRef.concatinate a (FixedStringRef.concatinate b c).2).2 =
    FixedStringRef.as_str (FixedStringRef.concatinate (FixedStringRef.concatinate a b).2 c).2 := by
  obtain ⟨_, hbc_len, hbc_str, hbc_wf⟩ := concatinate_spec b c hb hc hbc
  obtain ⟨_, hab_len, hab_str, hab_wf⟩ := concatinate_spec a b ha hb (by omega)
  obtain ⟨_, _, habc1_str, _⟩ :=
    concatinate_spec a (FixedStringRef.concatinate b c).2 ha hbc_wf (by rw [hbc_len]; omega)
  obtain ⟨_, _, habc2_str, _⟩ :=
    concatinate_spec (FixedStringRef.concatinate a b).2 c hab_wf hc (by rw [hab_len]; omega)
  rw [habc1_str, habc2_str, hbc_str, hab_str, List.append_assoc]

theorem c7_concat_assoc_witness :
    FixedStringRef.as_str
      (FixedStringRef.concatinate (⟨[1, 0, 0], 1⟩ : FixedString 3)
        (FixedStringRef.concatinate (⟨[2, 0], 1⟩ : FixedString 2)
          (⟨[3], 1⟩ : FixedString 1)).2).2 =
    FixedStringRef.as_str
      (FixedStringRef.concatinate
        (FixedStringRef.concatinate (⟨[1, 0, 0], 1⟩ : FixedString 3)
          (⟨[2, 0], 1⟩ : FixedString 2)).2 (⟨[3], 1⟩ : FixedString 1)).2 :=
  c7_concat_assoc 3 2 1 ⟨[1, 0, 0], 1⟩ ⟨[2, 0], 1⟩ ⟨[3], 1⟩
    (by decide) (by decide) (by decide) (by decide) (by decide)

/-- Claim C8: the capability accessors `get`/`get_mut` return
`InvalidIndex` exactly when the position is at least the capacity `N`
(and otherwise the unit at that position), while direct indexing
(`Index`/`IndexMut`) signals a fatal fault (modelled `none`) exactly when
the position is at least the current `length` (and otherwise the unit at
that position). -/
theorem c8_index_semantics (N : Nat) (s : FixedString N) (i : Nat) :
    (FixedStringRef.get s i = .error .InvalidIndex ↔ N ≤ i) ∧
    (i < N → FixedStringRef.get s i = .ok (s.buffer.getD i 0)) ∧
    (FixedStringRef.get_mut s i = .error .InvalidIndex ↔ N ≤ i) ∧
    (i < N → FixedStringRef.get_mut s i = .ok (s.buffer.getD i 0)) ∧
    (FixedString.index s i = none ↔ s.length ≤ i) ∧
    (i < s.length → FixedString.index s i = some (s.buffer.getD i 0)) ∧
    (FixedString.index_mut s i = none ↔ s.length ≤ i) ∧
    (i < s.length → FixedString.index_mut s i = some (s.buffer.getD i 0)) := by
  refine ⟨?_, ?_, ?_, ?_, ?_, ?_, ?_, ?_⟩
  · by_cases hN : N ≤ i
    · simp [FixedStringRef.get, hN]
    · simp [FixedStringRef.get, hN]
  · intro h
    have hN : ¬N ≤ i := by omega
    simp [FixedStringRef.get, hN]
  · by_cases hN : N ≤ i
    · simp [FixedStringRef.get_mut, hN]
    · simp [FixedStringRef.get_mut, hN]
  · intro h
    have hN : ¬N ≤ i := by omega
    simp [FixedStringRef.get_mut, hN]
  · by_cases hL : s.length ≤ i
    · simp [FixedString.index, hL]
    · simp [FixedString.index, hL]
  · intro h
    have hL : ¬s.length ≤ i := by omega
    simp [FixedString.index, hL]
  · by_cases hL : s.length ≤ i
    · simp [FixedString.index_mut, hL]
    · simp [FixedString.index_mut, hL]
  · intro h
    have hL : ¬s.length ≤ i := by omega
    simp [FixedString.index_mut, hL]

theorem c8_index_semantics_witness :
    FixedStringRef.get srcC2 1 = .ok (srcC2.buffer.getD 1 0) ∧
    FixedString.index srcC2 1 = none :=
  ⟨(c8_index_semantics 2 srcC2 1).2.1 (by decide),
   ((c8_index_semantics 2 srcC2 1).2.2.2.2.1).mpr (by decide)⟩

/-- Claim C9: formatted construction into capacity `N` returns a container
holding exactly the rendered text when the total rendered length fits, and
fails with `FormatError` (returning no container) when the accumulated
length would exceed `N`; in particular rendering "Hello " followed by
"World!" into capacity 11 fails with `FormatError`. -/
theorem c9_format_spec (N : Nat) (frags : List (List Nat)) :
    (sumLens frags ≤ N → ∃ fs, FixedString.format N frags = .ok fs ∧
      fs.length = sumLens frags ∧ FixedStringRef.as_str fs = frags.flatten) ∧
    (N < sumLens frags → FixedString.format N frags = .error .FormatError) ∧
    FixedString.format 11 [[72, 101, 108, 108, 111, 32], [87, 111, 114, 108, 100, 33]] =
      .error .FormatError := by
  have hnewWF : WF (FixedString.new N) := ⟨by simp [FixedString.new], by simp [FixedString.new]⟩
  refine ⟨?_, ?_, by rfl⟩
  · intro h
    obtain ⟨fs, hrun, hlen, hstr, _⟩ := renderFragments_spec frags (FixedString.new N) hnewWF
      (by show 0 + sumLens frags ≤ N; omega)
    refine ⟨fs, ?_, ?_, ?_⟩
    · rw [FixedString.format, hrun]
    · rw [hlen]
      show 0 + sumLens frags = sumLens frags
      omega
    · rw [hstr]
      show FixedStringRef.as_str (FixedString.new N) ++ frags.flatten = frags.flatten
      simp [FixedStringRef.as_str, FixedString.new]
  · intro h
    have hrun := renderFragments_overflow frags (FixedString.new N) hnewWF
      (by show 0 + sumLens frags > N; omega)
    rw [FixedString.format, hrun]

theorem c9_format_spec_witness :
    (∃ fs, FixedString.format 2 [[72], [105]] = .ok fs ∧
      fs.length = sumLens [[72], [105]] ∧
      FixedStringRef.as_str fs = ([[72], [105]] : List (List Nat)).flatten) ∧
    FixedString.format 1 [[72], [105]] = .error .FormatError :=
  ⟨(c9_format_spec 2 [[72], [105]]).1 (by decide),
   (c9_format_spec 1 [[72], [105]]).2.1 (by decide)⟩

/-- Claim C10: on a container with `length < N`, `push_char` (and
`write_char`) succeeds and stores the single unit `c % 256`, the Unicode
scalar value truncated to its low 8 bits; for any character with scalar
value 256 or greater the stored unit therefore differs from the scalar
value — it is not a faithful encoding. -/
theorem c10_push_char_truncates (N : Nat) (s : FixedString N) (c : Nat)
    (hs : WF s) (h : s.length < N) :
    FixedStringRef.push_char s c =
      (.ok (), ⟨s.buffer.set s.length (c % 256), s.length + 1⟩) ∧
    (FixedStringRef.push_char s c).2.buffer.getD s.length 0 = c % 256 ∧
    FixedString.write_char s c =
      .ok ⟨writeAt s.buffer s.length [c % 256], s.length + 1⟩ ∧
    (256 ≤ c → c % 256 ≠ c) := by
  have hguard : ¬s.length + 1 > N := by omega
  have hpc : FixedStringRef.push_char s c =
      (.ok (), ⟨s.buffer.set s.length (c % 256), s.length + 1⟩) := by
    simp [FixedStringRef.push_char, hguard]
  refine ⟨hpc, ?_, by simp [FixedString.write_char, hguard], ?_⟩
  · rw [hpc]
    show (s.buffer.set s.length (c % 256)).getD s.length 0 = c % 256
    rw [List.getD_eq_getElem?_getD, List.getElem?_set_self (by rw [hs.1]; omega)]
    rfl
  · intro hc
    have : c % 256 < 256 := Nat.mod_lt c (by omega)
    omega

theorem c10_push_char_truncates_witness :
    FixedStringRef.push_char (FixedString.new 2) 10084 =
      (.ok (), ⟨(FixedString.new 2).buffer.set (FixedString.new 2).length (10084 % 256),
                (FixedString.new 2).length + 1⟩) ∧
    (FixedStringRef.push_char (FixedString.new 2) 10084).2.buffer.getD
      (FixedString.new 2).length 0 = 10084 % 256 ∧
    FixedString.write_char (FixedString.new 2) 10084 =
      .ok ⟨writeAt (FixedString.new 2).buffer (FixedString.new 2).length [10084 % 256],
           (FixedString.new 2).length + 1⟩ ∧
    10084 % 256 ≠ 10084 :=
  ⟨(c10_push_char_truncates 2 (FixedString.new 2) 10084 (by decide) (by decide)).1,
   (c10_push_char_truncates 2 (FixedString.new 2) 10084 (by decide) (by decide)).2.1,
   (c10_push_char_truncates 2 (FixedString.new 2) 10084 (by decide) (by decide)).2.2.1,
   (c10_push_char_truncates 2 (FixedString.new 2) 10084 (by decide) (by decide)).2.2.2
      (by decide)⟩

end FixedStringModel
